import Mathlib

/-!
Shallow embedding of the hybrid-search core of `stasis` (`src/stasis/core/search.py`)
and proofs about it.

Text is modelled as its sequence of characters (`List Char`), mirroring Python's
`str` as a sequence of code points.  The MD5 digest (`hashlib.md5(...).hexdigest()`,
an external library call) is abstracted as a function parameter `md5Hex`; the
embedding model (`SentenceTransformer.encode`, external) as a parameter `embed`.
Machine floats in scoring are modelled over `ℚ` (exact); where the code's
floating-point division can be undefined (division by zero) the model records the
numerator and the square of the denominator explicitly instead of dividing.
-/

instance {ε α : Type} [DecidableEq ε] [DecidableEq α] : DecidableEq (Except ε α) :=
  fun a b =>
  match a, b with
  | .ok x, .ok y => if h : x = y then .isTrue (by simp [h]) else .isFalse (by simp [h])
  | .error x, .error y =>
    if h : x = y then .isTrue (by simp [h]) else .isFalse (by simp [h])
  | .ok _, .error _ => .isFalse (by simp)
  | .error _, .ok _ => .isFalse (by simp)

namespace Stasis

/-- A chunk dictionary as built by `MemorySearch._chunk_content`
(`search.py:308-315,335-342`): keys `content`, `source_file`, `line_start`,
`line_end`, `timestamp`, `content_hash`. -/
structure Chunk where
  content : List Char
  source_file : String
  line_start : Nat
  line_end : Nat
  timestamp : List Char
  content_hash : String
deriving DecidableEq, Repr

/-- Python's `content.split('\n')` (`search.py:290`): splitting on every newline;
the split of the empty string is `[""]`, and the result always has one more part
than the number of newlines. -/
def splitNl : List Char → List (List Char)
  | [] => [[]]
  | c :: cs =>
    if c = '\n' then [] :: splitNl cs
    else
      match splitNl cs with
      | [] => [[c]]
      | l :: ls => (c :: l) :: ls

/-- Python's `'\n'.join(lines)` (`search.py:305,332`). -/
def joinLines : List (List Char) → List Char
  | [] => []
  | [l] => l
  | l :: l' :: ls => l ++ '\n' :: joinLines (l' :: ls)

/-- The running length used by `_chunk_content`: each line contributes
`len(line) + 1` (`search.py:302`). -/
def sumLen1 (ls : List (List Char)) : Nat := (ls.map (fun l => l.length + 1)).sum

/-- The backward overlap walk of `_chunk_content` (`search.py:318-324`): the input
is the closed chunk's lines in reversed order; lines are collected from the front
(i.e. from the end of the chunk) until the accumulated `len(line) + 1` total
reaches the remaining `target`.  The result is in reversed order; the caller
reverses it back. -/
def overlapTake (target : Nat) : List (List Char) → List (List Char)
  | [] => []
  | l :: ls =>
    if target ≤ l.length + 1 then [l]
    else l :: overlapTake (target - (l.length + 1)) ls

/-- Timestamp-line test of `_chunk_content` (`search.py:298`):
`line.startswith('[') and ']' in line`. -/
def isTimestampLine (line : List Char) : Bool :=
  decide (line.head? = some '[') && line.contains ']'

/-- Timestamp extraction (`search.py:299`): `line.split(']')[0][1:]`, i.e.
everything before the first `]` with the leading `[` dropped. -/
def extractTimestamp (line : List Char) : List Char :=
  (line.takeWhile (fun c => c ≠ ']')).drop 1

/-- The main loop of `_chunk_content` (`search.py:296-342`), processing the
remaining lines with the loop state: `i` is the index of the next line,
`cur` is `current_chunk`, `curLen` is `current_length`, `start` is `line_start`,
`ts` is `current_timestamp`.  `chunkSize` and `overlap` are the constants
1600 and 320 from `search.py:286-287`; after the lines are exhausted a non-empty
buffer is emitted as a final chunk with `line_end = len(lines) - 1 = i - 1`. -/
def chunkLoop (md5Hex : List Char → String) (src : String) (chunkSize overlap : Nat) :
    List (List Char) → Nat → List (List Char) → Nat → Nat → List Char → List Chunk
  | [], i, cur, _curLen, start, ts =>
    if cur.isEmpty then []
    else
      [⟨joinLines cur, src, start, i - 1, ts, md5Hex (joinLines cur)⟩]
  | line :: rest, i, cur, curLen, start, ts =>
    if chunkSize ≤ curLen + line.length + 1 then
      ⟨joinLines (cur ++ [line]), src, start, i,
        if isTimestampLine line then extractTimestamp line else ts,
        md5Hex (joinLines (cur ++ [line]))⟩ ::
        chunkLoop md5Hex src chunkSize overlap rest (i + 1)
          ((overlapTake overlap (cur ++ [line]).reverse).reverse)
          (sumLen1 ((overlapTake overlap (cur ++ [line]).reverse).reverse))
          (i + 1 - ((overlapTake overlap (cur ++ [line]).reverse).reverse).length)
          (if isTimestampLine line then extractTimestamp line else ts)
    else
      chunkLoop md5Hex src chunkSize overlap rest (i + 1) (cur ++ [line])
        (curLen + line.length + 1) start
        (if isTimestampLine line then extractTimestamp line else ts)

/-- `MemorySearch._chunk_content` (`search.py:275-344`) with the source's
constants `chunk_size = 1600`, `overlap = 320`. -/
def chunkContent (md5Hex : List Char → String) (content : List Char) (src : String) :
    List Chunk :=
  chunkLoop md5Hex src 1600 320 (splitNl content) 0 [] 0 0 []

/-- A row of the FTS5 table `memory_fts` (`search.py:60-69`); the table has no
uniqueness constraint on any column. -/
structure FtsRow where
  content : List Char
  source_file : String
  line_start : Nat
  line_end : Nat
  timestamp : List Char
  content_hash : String
deriving DecidableEq, Repr

/-- A row of `memory_embeddings` (`search.py:72-83`); `content_hash` is declared
`UNIQUE`.  The auto-increment `id` is not modelled; row order mirrors rowid
order (a replaced row is re-inserted at the end). -/
structure EmbRow where
  content_hash : String
  embedding : List ℚ
  content : List Char
  source_file : String
  line_start : Nat
  line_end : Nat
  timestamp : List Char
deriving DecidableEq, Repr

/-- A row of `file_metadata` (`search.py:86-92`); `file_path` is the primary key. -/
structure FileMeta where
  file_path : String
  file_hash : String
  last_indexed : String
deriving DecidableEq, Repr

/-- The committed contents of the three tables of `index.db`. -/
structure Store where
  fts : List FtsRow
  embeddings : List EmbRow
  fileMeta : List FileMeta
deriving DecidableEq, Repr

/-- `MemorySearch._file_changed` (`search.py:350-363`): look up the stored
`file_hash` for `file_path`; `True` when no row exists or the stored hash
differs from `current_hash`.  The function only reads (one `SELECT`). -/
def fileChanged (s : Store) (file_path current_hash : String) : Bool :=
  match s.fileMeta.find? (fun r => r.file_path = file_path) with
  | none => true
  | some row => decide (row.file_hash ≠ current_hash)

/-- One chunk of the indexing loop body (`search.py:126-166`): skip when a
`memory_embeddings` row with the chunk's `content_hash` exists and `force` is
not set; otherwise call the embedding model, append the FTS row (`INSERT OR
REPLACE` on a table with no unique column behaves as a plain insert) and upsert
the embeddings row (`INSERT OR REPLACE` against the `UNIQUE content_hash`:
the conflicting row is deleted and the new row appended). -/
def indexChunkStep (embed : List Char → Except String (List ℚ)) (force : Bool)
    (ch : Chunk) (s : Store) : Except String (Option Store) :=
  if (s.embeddings.find? (fun r => r.content_hash = ch.content_hash)).isSome ∧ ¬force then
    .ok none
  else
    match embed ch.content with
    | .error e => .error e
    | .ok emb =>
      .ok (some
        { s with
          fts := s.fts ++
            [⟨ch.content, ch.source_file, ch.line_start, ch.line_end,
              ch.timestamp, ch.content_hash⟩],
          embeddings :=
            s.embeddings.filter (fun r => r.content_hash ≠ ch.content_hash) ++
              [⟨ch.content_hash, emb, ch.content, ch.source_file, ch.line_start,
                ch.line_end, ch.timestamp⟩] })

/-- The chunk loop of `index_memory_file` (`search.py:125-166`), threading the
(uncommitted) connection state and counting embedding-model calls. -/
def indexChunks (embed : List Char → Except String (List ℚ)) (force : Bool) :
    List Chunk → Store → Nat → Except String (Store × Nat)
  | [], s, calls => .ok (s, calls)
  | ch :: rest, s, calls =>
    match indexChunkStep embed force ch s with
    | .error e => .error e
    | .ok none => indexChunks embed force rest s calls
    | .ok (some s') => indexChunks embed force rest s' (calls + 1)

/-- `MemorySearch.index_memory_file` (`search.py:97-177`).  `fileExists` models
`memory_path.exists()`, `content` the file's text, `now` the `datetime('now')`
value.  The result is the committed store with the number of embedding calls;
`.error` models an exception propagating out of the pass — in that case
`conn.commit()` (`search.py:174`) is never reached, so the implicit sqlite3
transaction holding the pass's writes is rolled back and the committed store is
unchanged (see `committedStore`). -/
def indexMemoryFile (md5Hex : List Char → String)
    (embed : List Char → Except String (List ℚ)) (path : String)
    (fileExists : Bool) (content : List Char) (force : Bool) (now : String)
    (s : Store) : Except String (Store × Nat) :=
  if ¬fileExists then .ok (s, 0)
  else
    let current_hash := md5Hex content
    if ¬force ∧ ¬fileChanged s path current_hash then .ok (s, 0)
    else
      match indexChunks embed force (chunkContent md5Hex content path) s 0 with
      | .error e => .error e
      | .ok (s', calls) =>
        .ok ({ s' with
               fileMeta := s'.fileMeta.filter (fun r => r.file_path ≠ path) ++
                 [⟨path, current_hash, now⟩] }, calls)

/-- The committed database state after a pass: on success the new store, on a
propagated exception the pre-pass store (the transaction was never committed;
`search.py` commits only at line 174, after the whole loop). -/
def committedStore (s : Store) : Except String (Store × Nat) → Store
  | .ok (s', _) => s'
  | .error _ => s

/-- `np.dot(query_embedding, embedding)` (`search.py:226`), over exact rationals. -/
def npDot (q e : List ℚ) : ℚ := (List.zipWith (· * ·) q e).sum

/-- Sum of squares of a vector: `np.linalg.norm v` is its square root, so
`norm v = 0` iff `sumSq v = 0`. -/
def sumSq (v : List ℚ) : ℚ := (v.map (fun x => x * x)).sum

/-- The cosine-similarity expression of `search.py:226-228`,
`np.dot(q, e) / (np.linalg.norm(q) * np.linalg.norm(e))`, performed with no
guard on the denominator.  The irrational norms are represented exactly:
`numerator = np.dot(q, e)` and `denomSq = sumSq q * sumSq e`, the square of the
denominator, which is zero exactly when the denominator is.  The float value of
the expression is `numerator / sqrt denomSq` when `denomSq ≠ 0`, and an IEEE
NaN (`0/0`, with a runtime warning) when `denomSq = 0` — the division is
executed either way. -/
structure CosineComputation where
  numerator : ℚ
  denomSq : ℚ
deriving DecidableEq, Repr

/-- The similarity computation the vector scan performs for one stored
embedding (`search.py:226-228`). -/
def cosineSimComputation (q e : List ℚ) : CosineComputation :=
  ⟨npDot q e, sumSq q * sumSq e⟩

/-- The computation divides by zero iff the (squared) denominator is zero. -/
def CosineComputation.dividesByZero (c : CosineComputation) : Bool :=
  decide (c.denomSq = 0)

/-- The similarity value is the number `0` iff the division is defined and the
numerator is zero. -/
def CosineComputation.isZeroValue (c : CosineComputation) : Bool :=
  decide (c.denomSq ≠ 0) && decide (c.numerator = 0)

/-- The metadata carried by one candidate row in either pass of `search`
(`search.py:205-215` and `search.py:230-237`). -/
structure RowData where
  content : List Char
  source_file : String
  line_start : Nat
  line_end : Nat
  timestamp : List Char
deriving DecidableEq, Repr, Inhabited

/-- One value of the `bm25_results` dict (`search.py:205-215`), keyed by
`content`; `bm25_score` holds `abs(row[5])` (FTS5 returns negative scores). -/
structure BmEntry where
  data : RowData
  bm25_score : ℚ
deriving DecidableEq, Repr

/-- One value of the `vector_results` dict (`search.py:230-237`), keyed by
`content`; `vector_score` is the cosine similarity of the stored embedding
against the query embedding. -/
structure VecEntry where
  data : RowData
  vector_score : ℚ
deriving DecidableEq, Repr

/-- Dict lookup `bm25_results.get(content)` for the content-keyed dicts. -/
def bmGet (bm : List BmEntry) (c : List Char) : Option BmEntry :=
  bm.find? (fun b => b.data.content = c)

/-- Dict lookup `vector_results.get(content)`. -/
def vecGet (vec : List VecEntry) (c : List Char) : Option VecEntry :=
  vec.find? (fun v => v.data.content = c)

/-- `max(r['bm25_score'] for r in bm25_results.values())` (`search.py:251`);
only consulted when `bm25_results` is non-empty. -/
def maxBm (bm : List BmEntry) : ℚ :=
  ((bm.map (fun b => b.bm25_score)).max?).getD 0

/-- The lexical-score normalization of `search.py:246,249-252` for candidate
`c`: the raw score is 0 when the candidate is missing from the lexical dict
(`.get(content, {}).get('bm25_score', 0)`); when the lexical dict is non-empty
it is divided by the maximum lexical score if that maximum is positive and set
to 0 otherwise; when the lexical dict is empty the raw score is kept as is. -/
def normalizedLex (bm : List BmEntry) (c : List Char) : ℚ :=
  let bm25_score : ℚ := ((bmGet bm c).map (fun b => b.bm25_score)).getD 0
  if bm ≠ [] then (if 0 < maxBm bm then bm25_score / maxBm bm else 0)
  else bm25_score

/-- The per-candidate fusion of `search.py:245-254`: raw scores default to 0
for a candidate missing from a pass;
`hybrid_score = 0.7 * vector_score + 0.3 * bm25_score` with the lexical score
normalized as above. -/
def hybridScore (bm : List BmEntry) (vec : List VecEntry) (c : List Char) : ℚ :=
  7/10 * ((vecGet vec c).map (fun v => v.vector_score)).getD 0 +
    3/10 * normalizedLex bm c

/-- `data = bm25_results.get(content) or vector_results.get(content)`
(`search.py:257`): the lexical row's metadata is preferred when present. -/
def pickData (bm : List BmEntry) (vec : List VecEntry) (c : List Char) : RowData :=
  match bmGet bm c with
  | some b => b.data
  | none => ((vecGet vec c).map (fun v => v.data)).getD default

/-- One entry of the `combined` dict (`search.py:258`). -/
structure Scored where
  data : RowData
  hybrid_score : ℚ
deriving DecidableEq, Repr

/-- The `combined` dict of `search.py:242-258` in its iteration order:
`order` is the iteration order of the Python set
`all_contents = set(bm25_results) | set(vector_results)` — CPython leaves this
order unspecified (it depends on randomized string hashing), so the model takes
it as a parameter ranging over the enumerations of the union. -/
def combine (bm : List BmEntry) (vec : List VecEntry) (order : List (List Char)) :
    List Scored :=
  order.map (fun c => ⟨pickData bm vec c, hybridScore bm vec c⟩)

/-- The sort of `search.py:261`: `sorted(..., key=hybrid_score, reverse=True)`
is the stable descending sort by `hybrid_score`; any stable sort computes the
same list, here insertion sort. -/
def sortByScoreDesc (l : List Scored) : List Scored :=
  l.insertionSort (fun a b => b.hybrid_score ≤ a.hybrid_score)

/-- A returned `SearchResult` (`search.py:18-26`, built at `search.py:263-273`). -/
structure SearchResult where
  content : List Char
  score : ℚ
  line_start : Nat
  line_end : Nat
  timestamp : List Char
  source_file : String
deriving DecidableEq, Repr

/-- `search.py:263-273`: package a ranked entry as a `SearchResult`. -/
def toSearchResult (x : Scored) : SearchResult :=
  ⟨x.data.content, x.hybrid_score, x.data.line_start, x.data.line_end,
    x.data.timestamp, x.data.source_file⟩

/-- The ranking tail of `MemorySearch.search` (`search.py:241-273`): fuse the
two passes over the candidate union (enumerated by `order`), sort by
`hybrid_score` descending (stable), truncate to `top_k`, package. -/
def hybridRank (bm : List BmEntry) (vec : List VecEntry) (order : List (List Char))
    (top_k : Nat) : List SearchResult :=
  ((sortByScoreDesc (combine bm vec order)).take top_k).map toSearchResult

/-- The candidate union's canonical enumeration (up to permutation):
`set(bm25_results) | set(vector_results)`. -/
def unionContents (bm : List BmEntry) (vec : List VecEntry) : List (List Char) :=
  (bm.map (fun b => b.data.content) ++ vec.map (fun v => v.data.content)).dedup

/-- `MemorySearch.search` (`search.py:179-273`) at the level of the two
candidate passes: `bm`, `vec` and `order` abstract the BM25 pass, the vector
pass and the set-iteration order as above.  The code sends the raw query string
to FTS5 `MATCH` (`search.py:197-203`) with no emptiness guard; SQLite's FTS5
query parser rejects a query containing no token — in particular an empty or
whitespace-only string — with `fts5: syntax error`, which surfaces as a raised
`sqlite3.OperationalError`, modelled as `.error`. -/
def search (bm : List BmEntry) (vec : List VecEntry) (order : List (List Char))
    (query : List Char) (top_k : Nat) : Except String (List SearchResult) :=
  if query.any (fun c => ¬c.isWhitespace) then .ok (hybridRank bm vec order top_k)
  else .error "fts5: syntax error"

/-- The value of `current_timestamp` after the loop of `_chunk_content` has
scanned `rem`, starting from `ts` (`search.py:296-299`). -/
def finalTs (ts : List Char) : List (List Char) → List Char
  | [] => ts
  | line :: rest =>
    finalTs (if isTimestampLine line then extractTimestamp line else ts) rest

/-- The `UNIQUE` constraint on `memory_embeddings.content_hash`
(`search.py:75`): at most one row per hash. -/
def EmbHashesNodup (s : Store) : Prop :=
  (s.embeddings.map (fun r => r.content_hash)).Nodup

/-- A 1600-character line (forces an immediate chunk close: `1601 ≥ 1600`). -/
def bigLine : List Char := 'a' :: List.replicate 1599 'a'

/-- A two-line document producing three chunks, the first being `bigLine`
alone and the following two the whole document. -/
def twoChunkDoc : List Char := bigLine ++ '\n' :: ['b']

/-- An embedding model that embeds the 1600-character first chunk and raises
on every other text. -/
def embedFailSecond : List Char → Except String (List ℚ) := fun c =>
  if c.length = 1600 then .ok [1] else .error "boom"

/-! ### Claim statements under test -/

/-- C2 as stated: against an all-zero stored embedding, the similarity
computation of `search.py:226-228` yields the value 0 and performs no division
by zero. -/
def ClaimC2 : Prop :=
  ∀ q e : List ℚ, (∀ x ∈ e, x = 0) →
    (cosineSimComputation q e).dividesByZero = false ∧
      (cosineSimComputation q e).isZeroValue = true

/-- C3 as stated: an empty or whitespace-only query returns an empty result
list and raises no error. -/
def ClaimC3 : Prop :=
  ∀ (bm : List BmEntry) (vec : List VecEntry) (order : List (List Char))
    (query : List Char) (top_k : Nat),
    (∀ c ∈ query, c.isWhitespace = true) →
    search bm vec order query top_k = .ok []

/-- C4 as stated: chunking the empty document yields an empty chunk sequence,
and chunking any non-empty document of total length below the 1600-character
target yields exactly one chunk containing the whole document. -/
def ClaimC4 : Prop :=
  ∀ (md5Hex : List Char → String) (src : String),
    chunkContent md5Hex [] src = [] ∧
    (∀ content : List Char, content ≠ [] → content.length < 1600 →
      ∃ ch : Chunk, chunkContent md5Hex content src = [ch] ∧ ch.content = content)

/-- C5 as stated: for a fixed index state (hence fixed candidate passes), any
two executions — which may enumerate the candidate set
`set(bm25_results) | set(vector_results)` in different orders, since CPython
leaves set iteration order unspecified across processes — produce identical
ranked output; equivalently, ties are broken by a deterministic total order on
the candidates rather than by the enumeration order. -/
def ClaimC5 : Prop :=
  ∀ (bm : List BmEntry) (vec : List VecEntry) (order₁ order₂ : List (List Char))
    (top_k : Nat),
    order₁.Perm (unionContents bm vec) → order₂.Perm (unionContents bm vec) →
    hybridRank bm vec order₁ top_k = hybridRank bm vec order₂ top_k

/-- C6 as stated: when the embedding provider succeeds on the first chunk of a
pass and raises on the second, the pass aborts with that error, and the index
entries already written for the first chunk are retained in the (committed)
store rather than rolled back. -/
def ClaimC6 : Prop :=
  ∀ (md5Hex : List Char → String) (embed : List Char → Except String (List ℚ))
    (path : String) (content : List Char) (now : String) (s : Store)
    (c1 c2 : Chunk) (rest : List Chunk) (v : List ℚ) (e : String),
    chunkContent md5Hex content path = c1 :: c2 :: rest →
    embed c1.content = .ok v → embed c2.content = .error e →
    indexMemoryFile md5Hex embed path true content true now s = .error e ∧
    ∃ row ∈ (committedStore s
        (indexMemoryFile md5Hex embed path true content true now s)).embeddings,
      row.content_hash = c1.content_hash

/-! ### Helper lemmas -/

theorem sumSq_eq_zero_of_all_zero {e : List ℚ} (h : ∀ x ∈ e, x = 0) : sumSq e = 0 := by
  induction e with
  | nil => rfl
  | cons a l ih =>
    have ha : a = 0 := h a (by simp)
    simp [sumSq, ha] at ih ⊢
    exact ih (fun x hx => h x (by simp [hx]))

theorem npDot_eq_zero_of_right_zero {q e : List ℚ} (h : ∀ x ∈ e, x = 0) :
    npDot q e = 0 := by
  induction q generalizing e with
  | nil => rfl
  | cons a l ih =>
    cases e with
    | nil => rfl
    | cons b m =>
      have hb : b = 0 := h b (by simp)
      simp [npDot, hb] at ih ⊢
      exact ih (fun x hx => h x (by simp [hx]))

/-! ### C2 — zero-vector guard -/

/-- C2 counterexample: for query embedding `[1]` and stored embedding `[0]` the
denominator `norm q * norm e` is zero, so the unguarded division of
`search.py:226-228` is a division by zero (IEEE NaN), and the similarity is not
the number 0. -/
theorem c2_counterexample : ¬ClaimC2 := by
  intro h
  have := (h [1] [0] (by intro x hx; simpa using hx)).1
  simp [cosineSimComputation, CosineComputation.dividesByZero, sumSq, npDot] at this

/-- C2 amended: the code has no zero-vector guard; for every query embedding
and every all-zero stored embedding the denominator of the cosine-similarity
expression is zero, so the division at `search.py:226-228` is performed with a
zero denominator (the numerator `np.dot(q, e)` is also zero, making the float
result NaN, not 0). -/
theorem c2_zero_embedding_divides_by_zero (q e : List ℚ) (h : ∀ x ∈ e, x = 0) :
    (cosineSimComputation q e).dividesByZero = true ∧
      (cosineSimComputation q e).numerator = 0 := by
  constructor
  · simp [cosineSimComputation, CosineComputation.dividesByZero,
      sumSq_eq_zero_of_all_zero h]
  · simpa [cosineSimComputation] using npDot_eq_zero_of_right_zero (q := q) h

/-- C2 witness: the amended theorem at query embedding `[1, 2]` and stored
embedding `[0, 0]`. -/
theorem c2_zero_embedding_divides_by_zero_witness :
    (∀ x ∈ ([0, 0] : List ℚ), x = 0) ∧
      (cosineSimComputation [1, 2] [0, 0]).dividesByZero = true ∧
        (cosineSimComputation [1, 2] [0, 0]).numerator = 0 :=
  ⟨by decide, c2_zero_embedding_divides_by_zero [1, 2] [0, 0] (by decide)⟩

/-! ### C3 — empty/whitespace-only query -/

/-- C3 counterexample: the one-space query `" "` (and likewise the empty query)
makes the FTS5 `MATCH` of `search.py:197-203` fail with a syntax error, which
propagates; `search` does not return an empty list. -/
theorem c3_counterexample : ¬ClaimC3 := by
  intro h
  have := h [] [] [] [' '] 5 (by decide)
  simp [search] at this

/-- C3 amended: for an empty or whitespace-only query, `search` propagates the
FTS5 syntax error raised by the `MATCH` clause (`search.py:197-203` has no
empty-query guard; SQLite's FTS5 query parser rejects a token-less query),
rather than returning an empty result list. -/
theorem c3_whitespace_query_errors (bm : List BmEntry) (vec : List VecEntry)
    (order : List (List Char)) (query : List Char) (top_k : Nat)
    (h : ∀ c ∈ query, c.isWhitespace = true) :
    search bm vec order query top_k = .error "fts5: syntax error" := by
  have : query.any (fun c => ¬c.isWhitespace) = false := by
    simp only [List.any_eq_false]
    intro c hc
    simp [h c hc]
  simp only [search, this, Bool.false_eq_true, if_false]

/-- C3 witness: the amended theorem at the whitespace-only query `" \t"`. -/
theorem c3_whitespace_query_errors_witness :
    (∀ c ∈ ([' ', '\t'] : List Char), c.isWhitespace = true) ∧
      search [] [] [] [' ', '\t'] 5 = .error "fts5: syntax error" :=
  ⟨by decide, c3_whitespace_query_errors [] [] [] [' ', '\t'] 5 (by decide)⟩

/-! ### C7 — change-detection decision -/

/-- C7: the re-index gate of `index_memory_file` (`search.py:109-113`) proceeds
iff no `file_metadata` record exists for the path, or `force` is set, or the
stored `file_hash` differs from the hash of the current content; and when it
skips (record exists, no `force`, equal hashes) the call returns with the store
unchanged and zero embedding calls — the check performs no writes
(`_file_changed`, `search.py:350-363`, only reads). -/
theorem c7_change_detection (md5Hex : List Char → String)
    (embed : List Char → Except String (List ℚ)) (path : String)
    (content : List Char) (force : Bool) (now : String) (s : Store) :
    ((force || fileChanged s path (md5Hex content)) = true ↔
      (s.fileMeta.find? (fun r => r.file_path = path) = none ∨ force = true ∨
        ∃ row, s.fileMeta.find? (fun r => r.file_path = path) = some row ∧
          row.file_hash ≠ md5Hex content)) ∧
    ((force || fileChanged s path (md5Hex content)) = false →
      indexMemoryFile md5Hex embed path true content force now s = .ok (s, 0)) := by
  constructor
  · cases hf : s.fileMeta.find? (fun r => r.file_path = path) with
    | none => simp [fileChanged, hf]
    | some row => cases force <;> simp [fileChanged, hf]
  · intro h
    have hforce : force = false := by
      cases force with
      | true => simp at h
      | false => rfl
    have hch : fileChanged s path (md5Hex content) = false := by
      cases hc : fileChanged s path (md5Hex content) with
      | true => rw [hforce, hc] at h; simp at h
      | false => rfl
    subst hforce
    simp [indexMemoryFile, hch]

/-- C7 witness: the gate at a store whose metadata records the current hash,
with `force` unset: the call is a no-op returning the store unchanged. -/
theorem c7_change_detection_witness :
    indexMemoryFile (fun _ => "H") (fun _ => .error "no call") "MEMORY.md" true ['x']
      false "t" ⟨[], [], [⟨"MEMORY.md", "H", "t0"⟩]⟩ =
      .ok (⟨[], [], [⟨"MEMORY.md", "H", "t0"⟩]⟩, 0) :=
  (c7_change_detection (fun _ => "H") (fun _ => .error "no call") "MEMORY.md" ['x']
    false "t" ⟨[], [], [⟨"MEMORY.md", "H", "t0"⟩]⟩).2 (by decide)

/-! ### C8 — idempotent indexing -/

theorem find?_fileMeta_upsert (l : List FileMeta) (m : FileMeta) (path : String)
    (hm : m.file_path = path) :
    (l.filter (fun r => r.file_path ≠ path) ++ [m]).find?
      (fun r => r.file_path = path) = some m := by
  induction l with
  | nil => simp [List.find?, hm]
  | cons r l ih =>
    by_cases h : r.file_path = path
    · simpa [List.filter_cons, h] using ih
    · simpa [List.filter_cons, h, List.find?] using ih

/-- After a pass commits its metadata upsert (`search.py:169-172`), the stored
hash for the path equals the hash the pass computed, so `_file_changed` is
false. -/
theorem fileChanged_after_upsert (s : Store) (path cur now : String) :
    fileChanged
      { s with fileMeta := s.fileMeta.filter (fun r => r.file_path ≠ path) ++
          [⟨path, cur, now⟩] } path cur = false := by
  simp only [fileChanged, find?_fileMeta_upsert s.fileMeta ⟨path, cur, now⟩ path rfl]
  simp

/-- C8: indexing is idempotent.  (1) A successful pass over `content` leaves a
store on which a second pass over the same `content` without `force` is a
no-op: it returns the store unchanged and performs zero embedding calls
(`search.py:109-113`).  (2) At chunk level, a chunk whose `content_hash` is
already present in `memory_embeddings` is skipped without recomputing or
rewriting anything when `force` is not set (`search.py:126-133`). -/
theorem c8_idempotent_indexing :
    (∀ (md5Hex : List Char → String)
      (embed embed' : List Char → Except String (List ℚ)) (path : String)
      (content : List Char) (force : Bool) (now now' : String) (s s' : Store) (n : Nat),
      indexMemoryFile md5Hex embed path true content force now s = .ok (s', n) →
      indexMemoryFile md5Hex embed' path true content false now' s' = .ok (s', 0)) ∧
    (∀ (embed : List Char → Except String (List ℚ)) (ch : Chunk) (rest : List Chunk)
      (s : Store) (calls : Nat),
      (s.embeddings.find? (fun r => r.content_hash = ch.content_hash)).isSome = true →
      indexChunkStep embed false ch s = .ok none ∧
      indexChunks embed false (ch :: rest) s calls = indexChunks embed false rest s calls) := by
  constructor
  · intro md5Hex embed embed' path content force now now' s s' n h
    simp only [indexMemoryFile] at h
    rw [if_neg (by simp)] at h
    by_cases hskip : ¬force = true ∧ ¬fileChanged s path (md5Hex content) = true
    · rw [if_pos hskip] at h
      obtain ⟨rfl, -⟩ : s = s' ∧ (0 : Nat) = n := by simpa using h
      have hch : fileChanged s path (md5Hex content) = false := by
        simpa using hskip.2
      simp only [indexMemoryFile]
      rw [if_neg (by simp), if_pos ⟨by simp, by simp [hch]⟩]
    · rw [if_neg hskip] at h
      cases hrun : indexChunks embed force (chunkContent md5Hex content path) s 0 with
      | error e => rw [hrun] at h; exact absurd h (by simp)
      | ok p =>
        obtain ⟨s0, calls⟩ := p
        rw [hrun] at h
        obtain ⟨hs', -⟩ :
            ({ fts := s0.fts, embeddings := s0.embeddings,
               fileMeta := s0.fileMeta.filter (fun r => r.file_path ≠ path) ++
                 [⟨path, md5Hex content, now⟩] } : Store) = s' ∧ calls = n := by
          simpa using h
        subst hs'
        simp only [indexMemoryFile]
        rw [if_neg (by simp),
          if_pos ⟨by simp,
            by simpa using fileChanged_after_upsert s0 path (md5Hex content) now⟩]
  · intro embed ch rest s calls hsome
    have hstep : indexChunkStep embed false ch s = .ok none := by
      rw [indexChunkStep, if_pos (by simp [hsome])]
    exact ⟨hstep, by rw [indexChunks, hstep]⟩

/-- C8 witness: a concrete first pass from the empty store, followed by the
no-op second pass; and the chunk-level skip on a store already holding the
chunk's hash. -/
theorem c8_idempotent_indexing_witness :
    indexMemoryFile (fun _ => "H") (fun _ => .error "no call") "MEMORY.md" true ['x']
      false "t2"
      ⟨[⟨['x'], "MEMORY.md", 0, 0, [], "H"⟩],
       [⟨"H", [1], ['x'], "MEMORY.md", 0, 0, []⟩],
       [⟨"MEMORY.md", "H", "t"⟩]⟩ =
      .ok (⟨[⟨['x'], "MEMORY.md", 0, 0, [], "H"⟩],
            [⟨"H", [1], ['x'], "MEMORY.md", 0, 0, []⟩],
            [⟨"MEMORY.md", "H", "t"⟩]⟩, 0) :=
  c8_idempotent_indexing.1 (fun _ => "H") (fun _ => .ok [1]) (fun _ => .error "no call")
    "MEMORY.md" ['x'] false "t" "t2" ⟨[], [], []⟩ _ 1 (by decide)

/-! ### C10 — embeddings-table uniqueness vs FTS duplicates -/

theorem indexChunkStep_nodup {embed : List Char → Except String (List ℚ)}
    {force : Bool} {ch : Chunk} {s s' : Store}
    (h : indexChunkStep embed force ch s = .ok (some s'))
    (hs : EmbHashesNodup s) : EmbHashesNodup s' := by
  rw [indexChunkStep] at h
  by_cases hc :
      ((s.embeddings.find? (fun r => r.content_hash = ch.content_hash)).isSome = true ∧
        ¬force = true)
  · rw [if_pos hc] at h
    exact absurd h (by simp)
  · rw [if_neg hc] at h
    cases hemb : embed ch.content with
    | error e => rw [hemb] at h; exact absurd h (by simp)
    | ok emb =>
      rw [hemb] at h
      obtain rfl : _ = s' := by simpa using h
      unfold EmbHashesNodup at hs ⊢
      simp only [List.map_append]
      rw [List.nodup_append]
      refine ⟨(hs.sublist (List.Sublist.map _ (List.filter_sublist _))), by simp, ?_⟩
      intro a ha hb
      simp only [List.map_cons, List.map_nil, List.mem_singleton] at hb
      subst hb
      obtain ⟨r, hr, heq⟩ := List.mem_map.1 ha
      have hne := List.of_mem_filter hr
      rw [heq] at hne
      simp at hne

theorem indexChunks_nodup {embed : List Char → Except String (List ℚ)} {force : Bool} :
    ∀ (chunks : List Chunk) (s : Store) (calls : Nat) (s' : Store) (n : Nat),
      indexChunks embed force chunks s calls = .ok (s', n) →
      EmbHashesNodup s → EmbHashesNodup s' := by
  intro chunks
  induction chunks with
  | nil =>
    intro s calls s' n h hs
    obtain ⟨rfl, -⟩ : s = s' ∧ calls = n := by
      rw [indexChunks] at h; simpa using h
    exact hs
  | cons ch rest ih =>
    intro s calls s' n h hs
    rw [indexChunks] at h
    cases hstep : indexChunkStep embed force ch s with
    | error e => rw [hstep] at h; exact absurd h (by simp)
    | ok o =>
      cases o with
      | none => rw [hstep] at h; exact ih s calls s' n h hs
      | some s1 =>
        rw [hstep] at h
        exact ih s1 (calls + 1) s' n h (indexChunkStep_nodup hstep hs)

/-- C10: (1) any successful indexing pass preserves at-most-one-embeddings-row
per `content_hash` (the `UNIQUE` column plus `INSERT OR REPLACE`,
`search.py:72-83,153-164`), so after any sequence of passes from any
hash-unique store the invariant holds; (2) the FTS5 table has no uniqueness
constraint (`search.py:60-69`), so a forced re-index of an unchanged file
leaves two lexical rows with the same `content_hash` while the embeddings
table still has one. -/
theorem c10_embedding_unique_fts_duplicated :
    (∀ (md5Hex : List Char → String) (embed : List Char → Except String (List ℚ))
      (path : String) (fileExists : Bool) (content : List Char) (force : Bool)
      (now : String) (s s' : Store) (n : Nat),
      EmbHashesNodup s →
      indexMemoryFile md5Hex embed path fileExists content force now s = .ok (s', n) →
      EmbHashesNodup s') ∧
    (indexMemoryFile (fun _ => "H") (fun _ => .ok [1]) "MEMORY.md" true ['x'] false "t"
        ⟨[], [], []⟩ =
        .ok (⟨[⟨['x'], "MEMORY.md", 0, 0, [], "H"⟩],
              [⟨"H", [1], ['x'], "MEMORY.md", 0, 0, []⟩],
              [⟨"MEMORY.md", "H", "t"⟩]⟩, 1) ∧
      indexMemoryFile (fun _ => "H") (fun _ => .ok [2]) "MEMORY.md" true ['x'] true "t2"
        ⟨[⟨['x'], "MEMORY.md", 0, 0, [], "H"⟩],
         [⟨"H", [1], ['x'], "MEMORY.md", 0, 0, []⟩],
         [⟨"MEMORY.md", "H", "t"⟩]⟩ =
        .ok (⟨[⟨['x'], "MEMORY.md", 0, 0, [], "H"⟩, ⟨['x'], "MEMORY.md", 0, 0, [], "H"⟩],
              [⟨"H", [2], ['x'], "MEMORY.md", 0, 0, []⟩],
              [⟨"MEMORY.md", "H", "t2"⟩]⟩, 1) ∧
      ([⟨['x'], "MEMORY.md", 0, 0, [], "H"⟩,
        (⟨['x'], "MEMORY.md", 0, 0, [], "H"⟩ : FtsRow)].map
          (fun r => r.content_hash) = ["H", "H"]) ∧
      ([(⟨"H", [2], ['x'], "MEMORY.md", 0, 0, []⟩ : EmbRow)].map
          (fun r => r.content_hash) = ["H"])) := by
  constructor
  · intro md5Hex embed path fileExists content force now s s' n hs h
    simp only [indexMemoryFile] at h
    by_cases hfe : ¬fileExists = true
    · rw [if_pos hfe] at h
      obtain ⟨rfl, -⟩ : s = s' ∧ (0 : Nat) = n := by simpa using h
      exact hs
    · rw [if_neg hfe] at h
      by_cases hskip : ¬force = true ∧ ¬fileChanged s path (md5Hex content) = true
      · rw [if_pos hskip] at h
        obtain ⟨rfl, -⟩ : s = s' ∧ (0 : Nat) = n := by simpa using h
        exact hs
      · rw [if_neg hskip] at h
        cases hrun : indexChunks embed force (chunkContent md5Hex content path) s 0 with
        | error e => rw [hrun] at h; exact absurd h (by simp)
        | ok p =>
          obtain ⟨s0, calls⟩ := p
          rw [hrun] at h
          obtain ⟨hs', -⟩ :
              ({ fts := s0.fts, embeddings := s0.embeddings,
                 fileMeta := s0.fileMeta.filter (fun r => r.file_path ≠ path) ++
                   [⟨path, md5Hex content, now⟩] } : Store) = s' ∧ calls = n := by
            simpa using h
          subst hs'
          exact indexChunks_nodup _ s 0 s0 calls hrun hs
  · exact ⟨by decide, by decide, by decide, by decide⟩

/-- C10 witness: the invariant-preservation component applied to the concrete
first pass from the empty store. -/
theorem c10_embedding_unique_fts_duplicated_witness :
    EmbHashesNodup
      ⟨[⟨['x'], "MEMORY.md", 0, 0, [], "H"⟩],
       [⟨"H", [1], ['x'], "MEMORY.md", 0, 0, []⟩],
       [⟨"MEMORY.md", "H", "t"⟩]⟩ :=
  c10_embedding_unique_fts_duplicated.1 (fun _ => "H") (fun _ => .ok [1]) "MEMORY.md"
    true ['x'] false "t" ⟨[], [], []⟩ _ 1 (by simp [EmbHashesNodup]) (by decide)

/-! ### C1 — hybrid fusion over the union of both passes -/

theorem normalizedLex_of_missing {bm : List BmEntry} {c : List Char}
    (h : bmGet bm c = none) : normalizedLex bm c = 0 := by
  rw [normalizedLex, h]
  by_cases hbm : bm = [] <;> simp [hbm]

theorem hybridScore_of_missing_vec {bm : List BmEntry} {vec : List VecEntry}
    {c : List Char} (h : vecGet vec c = none) :
    hybridScore bm vec c = 3/10 * normalizedLex bm c := by
  rw [hybridScore, h]
  simp

theorem pickData_content {bm : List BmEntry} {vec : List VecEntry} {c : List Char}
    (h : c ∈ bm.map (fun b => b.data.content) ∨ c ∈ vec.map (fun v => v.data.content)) :
    (pickData bm vec c).content = c := by
  rw [pickData]
  cases hbm : bmGet bm c with
  | some b =>
    have := List.find?_some hbm
    simpa using this
  | none =>
    cases h with
    | inl hc =>
      exfalso
      obtain ⟨b, hb, hbc⟩ := List.mem_map.1 hc
      have := List.find?_eq_none.1 hbm b hb
      simp [hbc] at this
    | inr hc =>
      obtain ⟨v, hv, hvc⟩ := List.mem_map.1 hc
      cases hvec : vecGet vec c with
      | none =>
        exfalso
        have := List.find?_eq_none.1 hvec v hv
        simp [hvc] at this
      | some v' =>
        have := List.find?_some hvec
        simpa using this

theorem combine_map_content {bm : List BmEntry} {vec : List VecEntry} :
    ∀ order : List (List Char),
      (∀ c ∈ order,
        c ∈ bm.map (fun b => b.data.content) ∨ c ∈ vec.map (fun v => v.data.content)) →
      (combine bm vec order).map (fun x => x.data.content) = order := by
  intro order
  induction order with
  | nil => intro _; rfl
  | cons c rest ih =>
    intro h
    simp only [combine, List.map_cons, List.map_map] at ih ⊢
    refine congrArg₂ _ (pickData_content (h c (by simp))) ?_
    simpa [combine] using ih (fun d hd => h d (by simp [hd]))

/-- C1: the fusion of `search.py:241-261` ranks the union of the lexical and
vector candidate sets — for any enumeration `order` of the union, the ranked
candidates are a permutation of the union; each candidate's score is
`0.7 * vector_score + 0.3 * normalized_lexical_score`, the vector signal
contributing 0 when the candidate is missing from the vector pass and the
normalized lexical signal contributing 0 when it is missing from the lexical
pass; and on the spec's 2-chunk worked example (A: normalized lexical 1.0,
vector 0.2; B: normalized lexical 0.0, vector 0.9) the hybrid scores are 0.44
and 0.63 and B ranks above A. -/
theorem c1_fusion_union :
    (∀ (bm : List BmEntry) (vec : List VecEntry) (order : List (List Char)),
      order.Perm (unionContents bm vec) →
      ((sortByScoreDesc (combine bm vec order)).map (fun x => x.data.content)).Perm
        (unionContents bm vec) ∧
      (∀ c ∈ order, hybridScore bm vec c =
        7/10 * ((vecGet vec c).map (fun v => v.vector_score)).getD 0 +
          3/10 * normalizedLex bm c) ∧
      (∀ c, bmGet bm c = none → normalizedLex bm c = 0) ∧
      (∀ c, vecGet vec c = none → hybridScore bm vec c = 3/10 * normalizedLex bm c)) ∧
    hybridRank [⟨⟨['A'], "m", 0, 0, []⟩, 10⟩]
      [⟨⟨['A'], "m", 0, 0, []⟩, 1/5⟩, ⟨⟨['B'], "m", 1, 1, []⟩, 9/10⟩]
      [['A'], ['B']] 5 =
      [⟨['B'], 63/100, 1, 1, [], "m"⟩, ⟨['A'], 44/100, 0, 0, [], "m"⟩] := by
  constructor
  · intro bm vec order hperm
    have hmem : ∀ c ∈ order,
        c ∈ bm.map (fun b => b.data.content) ∨ c ∈ vec.map (fun v => v.data.content) := by
      intro c hc
      have : c ∈ unionContents bm vec := hperm.mem_iff.1 hc
      simpa [unionContents, List.mem_dedup] using this
    refine ⟨?_, fun c _ => rfl, fun c h => normalizedLex_of_missing h,
      fun c h => hybridScore_of_missing_vec h⟩
    have hsort : (sortByScoreDesc (combine bm vec order)).Perm (combine bm vec order) :=
      List.perm_insertionSort _ _
    have := hsort.map (fun x : Scored => x.data.content)
    rw [combine_map_content order hmem] at this
    exact this.trans hperm
  · norm_num +decide [hybridRank, sortByScoreDesc, combine, hybridScore, normalizedLex,
      pickData, bmGet, vecGet, maxBm, toSearchResult, List.insertionSort,
      List.orderedInsert, List.find?]

/-- C1 witness: the union-ranking component at the worked example's candidate
sets and enumeration. -/
theorem c1_fusion_union_witness :
    (([['A'], ['B']] : List (List Char)).Perm
      (unionContents [⟨⟨['A'], "m", 0, 0, []⟩, 10⟩]
        [⟨⟨['A'], "m", 0, 0, []⟩, 1/5⟩, ⟨⟨['B'], "m", 1, 1, []⟩, 9/10⟩])) ∧
    ((sortByScoreDesc (combine [⟨⟨['A'], "m", 0, 0, []⟩, 10⟩]
        [⟨⟨['A'], "m", 0, 0, []⟩, 1/5⟩, ⟨⟨['B'], "m", 1, 1, []⟩, 9/10⟩]
        [['A'], ['B']])).map (fun x => x.data.content)).Perm
      (unionContents [⟨⟨['A'], "m", 0, 0, []⟩, 10⟩]
        [⟨⟨['A'], "m", 0, 0, []⟩, 1/5⟩, ⟨⟨['B'], "m", 1, 1, []⟩, 9/10⟩]) :=
  ⟨by decide,
    (c1_fusion_union.1 [⟨⟨['A'], "m", 0, 0, []⟩, 10⟩]
      [⟨⟨['A'], "m", 0, 0, []⟩, 1/5⟩, ⟨⟨['B'], "m", 1, 1, []⟩, 9/10⟩]
      [['A'], ['B']] (by decide)).1⟩

/-! ### C5 — ranking determinism and tie-breaking -/

/-- C5 counterexample: two candidates with equal hybrid score (two stored
embeddings scoring 0 against the query, no lexical hits).  The sort of
`search.py:261` keys on `hybrid_score` alone, so Python's stable sort keeps
the enumeration order of the candidate set: enumerating `{a, b}` as `[a, b]`
versus `[b, a]` yields different ranked outputs. -/
theorem c5_counterexample : ¬ClaimC5 := by
  intro h
  have heq := h []
    [⟨⟨['a'], "m", 0, 0, []⟩, 0⟩, ⟨⟨['b'], "m", 1, 1, []⟩, 0⟩]
    [['a'], ['b']] [['b'], ['a']] 2 (by decide) (by decide)
  have h1 : hybridRank []
      [⟨⟨['a'], "m", 0, 0, []⟩, 0⟩, ⟨⟨['b'], "m", 1, 1, []⟩, 0⟩] [['a'], ['b']] 2 =
      [⟨['a'], 0, 0, 0, [], "m"⟩, ⟨['b'], 0, 1, 1, [], "m"⟩] := by
    norm_num +decide [hybridRank, sortByScoreDesc, combine, hybridScore, normalizedLex,
      pickData, bmGet, vecGet, maxBm, toSearchResult, List.insertionSort,
      List.orderedInsert, List.find?]
  have h2 : hybridRank []
      [⟨⟨['a'], "m", 0, 0, []⟩, 0⟩, ⟨⟨['b'], "m", 1, 1, []⟩, 0⟩] [['b'], ['a']] 2 =
      [⟨['b'], 0, 1, 1, [], "m"⟩, ⟨['a'], 0, 0, 0, [], "m"⟩] := by
    norm_num +decide [hybridRank, sortByScoreDesc, combine, hybridScore, normalizedLex,
      pickData, bmGet, vecGet, maxBm, toSearchResult, List.insertionSort,
      List.orderedInsert, List.find?]
  rw [h1, h2] at heq
  exact absurd heq (by decide)

/-- C5 amended: relative to a fixed enumeration order of the candidate set the
output is a pure function of the index state and query, sorted by
`hybrid_score` descending and truncated to `top_k` — but the code supplies no
deterministic total-order tie-break: equal-score candidates are ordered by the
stable sort according to the candidate set's iteration order, which the code
does not fix (so repeated identical queries are only bit-identical while that
iteration order happens to be reproduced, e.g. within one process). -/
theorem c5_sorted_truncated (bm : List BmEntry) (vec : List VecEntry)
    (order : List (List Char)) (top_k : Nat) :
    (hybridRank bm vec order top_k).Pairwise (fun a b => b.score ≤ a.score) ∧
    (hybridRank bm vec order top_k).length = min top_k order.length ∧
    hybridRank bm vec order top_k =
      ((sortByScoreDesc (combine bm vec order)).take top_k).map toSearchResult := by
  refine ⟨?_, ?_, rfl⟩
  · haveI htot : IsTotal Scored (fun a b => b.hybrid_score ≤ a.hybrid_score) :=
      ⟨fun a b => le_total b.hybrid_score a.hybrid_score⟩
    haveI htr : IsTrans Scored (fun a b => b.hybrid_score ≤ a.hybrid_score) :=
      ⟨fun _ _ _ hab hbc => le_trans hbc hab⟩
    have hs : (sortByScoreDesc (combine bm vec order)).Pairwise
        (fun a b => b.hybrid_score ≤ a.hybrid_score) :=
      List.sorted_insertionSort _ _
    have ht := hs.sublist (List.take_sublist top_k _)
    rw [hybridRank, List.pairwise_map]
    exact ht
  · simp [hybridRank, (List.perm_insertionSort
      (fun a b : Scored => b.hybrid_score ≤ a.hybrid_score) _).length_eq,
      sortByScoreDesc, combine]

/-! ### Chunker lemmas -/

theorem splitNl_ne_nil (l : List Char) : splitNl l ≠ [] := by
  induction l with
  | nil => simp [splitNl]
  | cons c cs ih =>
    by_cases hc : c = '\n'
    · simp [splitNl, hc]
    · cases h : splitNl cs with
      | nil => simp [splitNl, hc, h]
      | cons a as => simp [splitNl, hc, h]

theorem joinLines_splitNl (l : List Char) : joinLines (splitNl l) = l := by
  induction l with
  | nil => rfl
  | cons c cs ih =>
    by_cases hc : c = '\n'
    · subst hc
      rw [splitNl, if_pos rfl]
      cases h : splitNl cs with
      | nil => exact absurd h (splitNl_ne_nil cs)
      | cons a as =>
        rw [h] at ih
        exact congrArg (List.cons '\n') ih
    · rw [splitNl, if_neg hc]
      cases h : splitNl cs with
      | nil => exact absurd h (splitNl_ne_nil cs)
      | cons a as =>
        rw [h] at ih
        cases as with
        | nil => exact congrArg (List.cons c) ih
        | cons b bs => exact congrArg (List.cons c) ih

theorem sumLen1_splitNl (l : List Char) : sumLen1 (splitNl l) = l.length + 1 := by
  induction l with
  | nil => rfl
  | cons c cs ih =>
    by_cases hc : c = '\n'
    · subst hc
      rw [splitNl, if_pos rfl]
      simp [sumLen1] at ih ⊢
      omega
    · rw [splitNl, if_neg hc]
      cases h : splitNl cs with
      | nil => exact absurd h (splitNl_ne_nil cs)
      | cons a as =>
        rw [h] at ih
        simp [sumLen1] at ih ⊢
        omega

theorem splitNl_no_newline : ∀ l : List Char, (∀ c ∈ l, c ≠ '\n') → splitNl l = [l] := by
  intro l
  induction l with
  | nil => intro _; rfl
  | cons c cs ih =>
    intro h
    have hc : c ≠ '\n' := h c (by simp)
    rw [splitNl, if_neg hc, ih (fun d hd => h d (by simp [hd]))]

theorem splitNl_append_newline :
    ∀ l₁ : List Char, (∀ c ∈ l₁, c ≠ '\n') →
      ∀ l₂ : List Char, splitNl (l₁ ++ '\n' :: l₂) = l₁ :: splitNl l₂ := by
  intro l₁
  induction l₁ with
  | nil =>
    intro _ l₂
    rw [List.nil_append, splitNl, if_pos rfl]
  | cons c cs ih =>
    intro h l₂
    have hc : c ≠ '\n' := h c (by simp)
    rw [List.cons_append, splitNl, if_neg hc, ih (fun d hd => h d (by simp [hd])) l₂]

/-- When the accumulated length of the buffer plus all remaining lines stays
below the size target, `chunkLoop` never closes a chunk and emits exactly the
final-buffer chunk (`search.py:330-342`), spanning everything. -/
theorem chunkLoop_small (md5Hex : List Char → String) (src : String) (cs ov : Nat) :
    ∀ (rem : List (List Char)) (i : Nat) (cur : List (List Char)) (curLen start : Nat)
      (ts : List Char),
      curLen = sumLen1 cur → curLen + sumLen1 rem < cs →
      chunkLoop md5Hex src cs ov rem i cur curLen start ts =
        if (cur ++ rem).isEmpty then []
        else [⟨joinLines (cur ++ rem), src, start, i + rem.length - 1,
          finalTs ts rem, md5Hex (joinLines (cur ++ rem))⟩] := by
  intro rem
  induction rem with
  | nil =>
    intro i cur curLen start ts hlen hsmall
    simp [chunkLoop, finalTs]
  | cons line rest ih =>
    intro i cur curLen start ts hlen hsmall
    have hrest : sumLen1 (line :: rest) = line.length + 1 + sumLen1 rest := by
      simp [sumLen1]
    have hlt : ¬cs ≤ curLen + line.length + 1 := by omega
    rw [chunkLoop]
    simp only [hlt, if_false, ite_false]
    rw [ih (i + 1) (cur ++ [line]) (curLen + line.length + 1) start
      (if isTimestampLine line then extractTimestamp line else ts)
      (by simp [sumLen1, hlen]; omega) (by omega)]
    have harr : (cur ++ [line]) ++ rest = cur ++ line :: rest := by simp
    have hend : i + 1 + rest.length - 1 = i + (line :: rest).length - 1 := by
      simp only [List.length_cons]
      omega
    rw [harr, hend]
    rfl

/-! ### C4 — chunking the empty and the short document -/

/-- A single line with no newline whose `len + 1` reaches the size target is
emitted twice: once when the threshold closes the chunk and once as the final
chunk re-seeded entirely from the overlap walk (`search.py:304-342`). -/
theorem bigLine_chunks (md5Hex : List Char → String) (src : String) (l : List Char)
    (hnl : ∀ c ∈ l, c ≠ '\n') (hlen : 1600 ≤ l.length + 1)
    (hts : isTimestampLine l = false) :
    chunkContent md5Hex l src =
      [⟨l, src, 0, 0, [], md5Hex l⟩, ⟨l, src, 0, 0, [], md5Hex l⟩] := by
  have h320 : (320 : Nat) ≤ l.length + 1 := by omega
  have hov : overlapTake 320 [l] = [l] := by rw [overlapTake, if_pos h320]
  have hcond : 1600 ≤ 0 + l.length + 1 := by omega
  rw [chunkContent, splitNl_no_newline l hnl]
  simp only [chunkLoop, hts, Bool.false_eq_true, if_false, ite_false, List.nil_append,
    List.reverse_cons, List.reverse_nil, hov, if_pos hcond]
  simp [joinLines, sumLen1]

/-- C4 counterexample: (1) the empty document yields one chunk with empty
content, not an empty sequence (`''.split('\n')` is `['']`, so the final
buffer is non-empty); (2) a 1599-character document — below the 1600 target —
yields two chunks, because the loop counts `len(line) + 1` per line
(`search.py:302`), so the claim fails as stated on both conjuncts. -/
theorem c4_counterexample :
    ¬ClaimC4 ∧
      (chunkContent (fun _ => "H") ('a' :: List.replicate 1598 'a') "m").length = 2 := by
  constructor
  · intro h
    have h1 := (h (fun _ => "H") "m").1
    have h2 : chunkContent (fun _ => "H") [] "m" = [⟨[], "m", 0, 0, [], "H"⟩] := by
      decide
    rw [h2] at h1
    simp at h1
  · rw [bigLine_chunks (fun _ => "H") "m" ('a' :: List.replicate 1598 'a')
      (by
        intro c hc
        have hca : c = 'a' := by
          rcases List.mem_cons.1 hc with h | h
          · exact h
          · exact List.eq_of_mem_replicate h
        subst hca
        decide)
      (by rw [List.length_cons, List.length_replicate])
      (by
        simp only [isTimestampLine, List.head?_cons]
        rw [show decide ((some 'a' : Option Char) = some '[') = false from rfl,
          Bool.false_and])]
    rfl

/-- C4 amended: chunking the empty document yields exactly one chunk with
empty content (spanning line 0), and chunking any document of total length at
most 1598 characters — so that the loop's running length, which counts one
newline allowance per line, stays below the 1600 target — yields exactly one
chunk whose content is the entire document, spanning all its lines. -/
theorem c4_single_chunk (md5Hex : List Char → String) (content : List Char)
    (src : String) (h : content.length ≤ 1598) :
    chunkContent md5Hex content src =
      [⟨content, src, 0, (splitNl content).length - 1, finalTs [] (splitNl content),
        md5Hex content⟩] := by
  rw [chunkContent, chunkLoop_small md5Hex src 1600 320 (splitNl content) 0 [] 0 0 []
    rfl (by rw [sumLen1_splitNl]; omega)]
  rw [if_neg (by simpa using splitNl_ne_nil content)]
  simp [joinLines_splitNl]

/-- C4 witness: the amended theorem at the one-character document `"x"`. -/
theorem c4_single_chunk_witness :
    (['x'] : List Char).length ≤ 1598 ∧
      chunkContent (fun _ => "H") ['x'] "m" =
        [⟨['x'], "m", 0, (splitNl ['x']).length - 1, finalTs [] (splitNl ['x']), "H"⟩] :=
  ⟨by decide, c4_single_chunk (fun _ => "H") ['x'] "m" (by decide)⟩

/-! ### C9 — chunk/line-range/hash consistency -/

theorem overlapTake_append (t : Nat) (l : List (List Char)) :
    ∃ rest, overlapTake t l ++ rest = l := by
  induction l generalizing t with
  | nil => exact ⟨[], rfl⟩
  | cons x xs ih =>
    by_cases h : t ≤ x.length + 1
    · exact ⟨xs, by rw [overlapTake, if_pos h]; rfl⟩
    · obtain ⟨rest, hrest⟩ := ih (t - (x.length + 1))
      exact ⟨rest, by rw [overlapTake, if_neg h, List.cons_append, hrest]⟩

theorem overlapTake_ne_nil (t : Nat) (x : List Char) (xs : List (List Char)) :
    overlapTake t (x :: xs) ≠ [] := by
  rw [overlapTake]
  by_cases h : t ≤ x.length + 1 <;> simp [h]

theorem take_succ_of_drop {α : Type} {X : List α} :
    ∀ {k : Nat} {a : α} {r : List α},
      X.drop k = a :: r → X.take k ++ [a] = X.take (k + 1) := by
  induction X with
  | nil =>
    intro k a r h
    rw [List.drop_nil] at h
    exact absurd h (by simp)
  | cons x xs ih =>
    intro k a r h
    cases k with
    | zero =>
      rw [List.drop_zero] at h
      obtain ⟨rfl, -⟩ : x = a ∧ xs = r := by simpa using h
      rfl
    | succ k =>
      rw [List.drop_succ_cons] at h
      exact congrArg (List.cons x) (ih h)

/-- The overlap seed (`search.py:318-328`) is a suffix of the closed chunk's
buffer: walking `reversed(current_chunk)` collects a prefix of the reversed
buffer. -/
theorem exists_pre_overlap (t : Nat) (cur' : List (List Char)) :
    ∃ pre, pre ++ (overlapTake t cur'.reverse).reverse = cur' := by
  obtain ⟨rest, hrest⟩ := overlapTake_append t cur'.reverse
  refine ⟨rest.reverse, ?_⟩
  have h := congrArg List.reverse hrest
  simpa [List.reverse_append] using h

theorem overlapTake_reverse_ne_nil (t : Nat) (cur' : List (List Char))
    (h : cur' ≠ []) : (overlapTake t cur'.reverse).reverse ≠ [] := by
  simp only [ne_eq, List.reverse_eq_nil_iff]
  cases hr : cur'.reverse with
  | nil => exact absurd (List.reverse_eq_nil_iff.1 hr) h
  | cons x xs => exact overlapTake_ne_nil t x xs

/-- If the closed buffer holds exactly `lines[start..i]`, the overlap seed
holds exactly `lines[i+1-len..i]` where `len` is its own length — the
`line_start = i - len(overlap_lines) + 1` recomputation of `search.py:328`. -/
theorem seed_spec (lines : List (List Char)) (start i t : Nat)
    (hstart : start ≤ i) (hlt : i < lines.length)
    (cur' : List (List Char))
    (hcur : cur' = (lines.drop start).take (i + 1 - start)) :
    (overlapTake t cur'.reverse).reverse =
      (lines.drop (i + 1 - (overlapTake t cur'.reverse).reverse.length)).take
        ((i + 1) - (i + 1 - (overlapTake t cur'.reverse).reverse.length)) := by
  obtain ⟨pre, hpre⟩ := exists_pre_overlap t cur'
  generalize hOV : (overlapTake t cur'.reverse).reverse = OV at hpre ⊢
  have hlencur : cur'.length = i + 1 - start := by
    rw [hcur, List.length_take, List.length_drop]
    omega
  have hsum : pre.length + OV.length = i + 1 - start := by
    rw [← List.length_append, hpre, hlencur]
  have hov : OV = cur'.drop pre.length := by
    rw [← hpre, List.drop_left]
  have e1 : start + pre.length = i + 1 - OV.length := by omega
  have e2 : i + 1 - start - pre.length = OV.length := by omega
  have e3 : (i + 1) - (i + 1 - OV.length) = OV.length := by omega
  rw [e3, ← e1, ← List.drop_drop, ← e2, ← List.drop_take, ← hcur]
  exact hov

/-- Loop invariant of `_chunk_content` (`search.py:296-342`): the buffer always
holds exactly the source lines `start..i-1`, so every chunk emitted by the
loop joins exactly the lines of its declared inclusive range, has
`line_start ≤ line_end`, and carries the digest of its own content. -/
theorem chunkLoop_chunks_spec (md5Hex : List Char → String) (src : String)
    (cs ov0 : Nat) (lines : List (List Char)) :
    ∀ (rem : List (List Char)) (i : Nat) (cur : List (List Char)) (curLen start : Nat)
      (ts : List Char),
      start ≤ i → rem = lines.drop i → cur = (lines.drop start).take (i - start) →
      ∀ c ∈ chunkLoop md5Hex src cs ov0 rem i cur curLen start ts,
        c.content =
          joinLines ((lines.drop c.line_start).take (c.line_end + 1 - c.line_start)) ∧
        c.line_start ≤ c.line_end ∧
        c.content_hash = md5Hex c.content := by
  intro rem
  induction rem with
  | nil =>
    intro i cur curLen start ts hstart hrem hcur c hc
    rw [chunkLoop] at hc
    by_cases hemp : cur.isEmpty
    · rw [if_pos hemp] at hc
      simp at hc
    · rw [if_neg hemp] at hc
      simp only [List.mem_singleton] at hc
      subst hc
      have hne : cur ≠ [] := by simpa [List.isEmpty_iff] using hemp
      have hlt : start < i := by
        by_contra hle
        have h0 : i - start = 0 := by omega
        rw [h0, List.take_zero] at hcur
        exact hne hcur
      refine ⟨?_, by show start ≤ i - 1; omega, rfl⟩
      have he : (i - 1) + 1 - start = i - start := by omega
      show joinLines cur =
        joinLines ((lines.drop start).take ((i - 1) + 1 - start))
      rw [he, hcur]
  | cons line rest ih =>
    intro i cur curLen start ts hstart hrem hcur c hc
    have hrest : rest = lines.drop (i + 1) := by
      have h := congrArg List.tail hrem
      simpa [List.tail_drop] using h
    have hilt : i < lines.length := by
      by_contra hge
      have h0 : lines.drop i = [] := List.drop_eq_nil_of_le (by omega)
      rw [h0] at hrem
      exact absurd hrem (by simp)
    have hcur' : cur ++ [line] = (lines.drop start).take (i + 1 - start) := by
      have hd : (lines.drop start).drop (i - start) = line :: rest := by
        rw [List.drop_drop]
        have h1 : start + (i - start) = i := by omega
        rw [h1, ← hrem]
      have h2 := take_succ_of_drop hd
      rw [hcur, h2]
      congr 1
      omega
    simp only [chunkLoop] at hc
    by_cases hclose : cs ≤ curLen + line.length + 1
    · rw [if_pos hclose] at hc
      rcases List.mem_cons.1 hc with hc0 | hcr
      · subst hc0
        refine ⟨?_, hstart, rfl⟩
        show joinLines (cur ++ [line]) =
          joinLines ((lines.drop start).take (i + 1 - start))
        rw [hcur']
      · have hnecur : cur ++ [line] ≠ [] := by simp
        exact ih (i + 1) _ _ _ _ (by omega) hrest
          (by
            have := seed_spec lines start i ov0 hstart hilt (cur ++ [line]) hcur'
            simpa using this) c hcr
    · rw [if_neg hclose] at hc
      exact ih (i + 1) (cur ++ [line]) _ start _ (by omega) hrest
        (by rw [hcur']) c hc

/-- C9: every chunk emitted by `_chunk_content` (`search.py:275-344`) is
internally consistent — its content is the newline-join of the source lines
`line_start..line_end` inclusive, `line_start ≤ line_end`, and its
`content_hash` is the digest of its content. -/
theorem c9_chunk_consistency (md5Hex : List Char → String) (content : List Char)
    (src : String) (c : Chunk) (hc : c ∈ chunkContent md5Hex content src) :
    c.content = joinLines (((splitNl content).drop c.line_start).take
      (c.line_end + 1 - c.line_start)) ∧
    c.line_start ≤ c.line_end ∧
    c.content_hash = md5Hex c.content :=
  chunkLoop_chunks_spec md5Hex src 1600 320 (splitNl content) (splitNl content) 0 []
    0 0 [] (Nat.le_refl 0) rfl (by simp) c hc

/-- C9 witness: the consistency statement at the one-line document `"x"` and
its single chunk. -/
theorem c9_chunk_consistency_witness :
    (⟨['x'], "m", 0, 0, [], "H"⟩ : Chunk) ∈ chunkContent (fun _ => "H") ['x'] "m" ∧
      ((⟨['x'], "m", 0, 0, [], "H"⟩ : Chunk).content =
        joinLines (((splitNl ['x']).drop 0).take (0 + 1 - 0)) ∧
       (0 : Nat) ≤ 0 ∧ ("H" : String) = (fun _ => "H") (['x'] : List Char)) :=
  ⟨by decide, c9_chunk_consistency (fun _ => "H") ['x'] "m" ⟨['x'], "m", 0, 0, [], "H"⟩
    (by decide)⟩

/-! ### C6 — embedding failure mid-pass -/

/-- If the provider embeds the first chunk but fails on the second, the whole
pass raises: the loop of `search.py:126-166` propagates the exception before
`conn.commit()` (`search.py:174`) is reached. -/
theorem indexMemoryFile_embed_fail (md5Hex : List Char → String)
    (embed : List Char → Except String (List ℚ)) (path : String) (content : List Char)
    (now : String) (s : Store) (c1 c2 : Chunk) (rest : List Chunk) (v : List ℚ)
    (e : String) (hch : chunkContent md5Hex content path = c1 :: c2 :: rest)
    (h1 : embed c1.content = .ok v) (h2 : embed c2.content = .error e) :
    indexMemoryFile md5Hex embed path true content true now s = .error e := by
  have hstep1 : ∃ s1, indexChunkStep embed true c1 s = .ok (some s1) := by
    rw [indexChunkStep, if_neg (by simp), h1]
    exact ⟨_, rfl⟩
  obtain ⟨s1, hstep1⟩ := hstep1
  have hstep2 : indexChunkStep embed true c2 s1 = .error e := by
    rw [indexChunkStep, if_neg (by simp), h2]
  have hloop : indexChunks embed true (c1 :: c2 :: rest) s 0 = .error e := by
    rw [indexChunks]
    simp only [hstep1]
    rw [indexChunks]
    simp only [hstep2]
  simp only [indexMemoryFile]
  rw [if_neg (by simp), if_neg (by simp), hch, hloop]

theorem bigLine_length : bigLine.length = 1600 := by
  rw [bigLine, List.length_cons, List.length_replicate]

theorem twoChunkDoc_length : twoChunkDoc.length = 1602 := by
  rw [twoChunkDoc, List.length_append, bigLine_length]
  decide

theorem bigLine_no_newline : ∀ c ∈ bigLine, c ≠ '\n' := by
  intro c hc
  have hca : c = 'a' := by
    rcases List.mem_cons.1 hc with h | h
    · exact h
    · exact List.eq_of_mem_replicate h
  subst hca
  decide

theorem splitNl_twoChunkDoc : splitNl twoChunkDoc = [bigLine, ['b']] := by
  rw [twoChunkDoc, splitNl_append_newline bigLine bigLine_no_newline,
    splitNl_no_newline ['b'] (by decide)]

theorem bigLine_not_ts : isTimestampLine bigLine = false := by
  rw [bigLine]
  simp only [isTimestampLine, List.head?_cons]
  rw [show decide ((some 'a' : Option Char) = some '[') = false from rfl, Bool.false_and]

theorem joinLines_singleton (l : List Char) : joinLines [l] = l := rfl

theorem joinLines_pair (l l' : List Char) : joinLines [l, l'] = l ++ '\n' :: l' := rfl

theorem sumLen1_singleton (l : List Char) : sumLen1 [l] = l.length + 1 := by
  simp [sumLen1]

theorem overlapTake_320_bigLine : overlapTake 320 [bigLine] = [bigLine] := by
  rw [overlapTake, if_pos (by rw [bigLine_length]; omega)]

theorem overlapTake_318_bigLine : overlapTake 318 [bigLine] = [bigLine] := by
  rw [overlapTake, if_pos (by rw [bigLine_length]; omega)]

theorem overlapTake_320_pair : overlapTake 320 [['b'], bigLine] = [['b'], bigLine] := by
  rw [overlapTake, if_neg (by decide)]
  have h2 : (320 : Nat) - (['b'].length + 1) = 318 := by decide
  rw [h2, overlapTake_318_bigLine]

theorem join_twoChunkDoc : bigLine ++ '\n' :: ['b'] = twoChunkDoc := rfl

/-- The chunk sequence of `twoChunkDoc` under the trivial digest: the first
line closes a chunk on its own, the second line closes a chunk spanning the
whole document, and the final buffer re-emits the whole document. -/
theorem twoChunkDoc_chunks :
    chunkContent (fun _ => "H") twoChunkDoc "p" =
      [⟨bigLine, "p", 0, 0, [], "H"⟩, ⟨twoChunkDoc, "p", 0, 1, [], "H"⟩,
        ⟨twoChunkDoc, "p", 0, 1, [], "H"⟩] := by
  have hbts : isTimestampLine ['b'] = false := by decide
  rw [chunkContent, splitNl_twoChunkDoc]
  have stepA : chunkLoop (fun _ => "H") "p" 1600 320 [bigLine, ['b']] 0 [] 0 0 [] =
      ⟨bigLine, "p", 0, 0, [], "H"⟩ ::
        chunkLoop (fun _ => "H") "p" 1600 320 [['b']] 1 [bigLine] (sumLen1 [bigLine])
          0 [] := by
    rw [chunkLoop, if_pos (by rw [bigLine_length]; omega)]
    simp [bigLine_not_ts, overlapTake_320_bigLine, joinLines_singleton]
  have stepB : chunkLoop (fun _ => "H") "p" 1600 320 [['b']] 1 [bigLine]
      (sumLen1 [bigLine]) 0 [] =
      ⟨twoChunkDoc, "p", 0, 1, [], "H"⟩ ::
        chunkLoop (fun _ => "H") "p" 1600 320 [] 2 [bigLine, ['b']]
          (sumLen1 [bigLine, ['b']]) 0 [] := by
    conv_lhs => rw [chunkLoop]
    rw [if_pos (by rw [sumLen1_singleton, bigLine_length]; decide)]
    simp [hbts, overlapTake_320_pair, joinLines_pair, join_twoChunkDoc]
  have stepC : chunkLoop (fun _ => "H") "p" 1600 320 [] 2 [bigLine, ['b']]
      (sumLen1 [bigLine, ['b']]) 0 [] = [⟨twoChunkDoc, "p", 0, 1, [], "H"⟩] := by
    rw [chunkLoop]
    simp [joinLines_pair, join_twoChunkDoc]
  rw [stepA, stepB, stepC]

theorem embedFailSecond_bigLine : embedFailSecond bigLine = .ok [1] := by
  simp only [embedFailSecond]
  rw [if_pos bigLine_length]

theorem embedFailSecond_twoChunkDoc : embedFailSecond twoChunkDoc = .error "boom" := by
  simp only [embedFailSecond]
  rw [if_neg (by rw [twoChunkDoc_length]; decide)]

/-- C6 counterexample: on a two-line document whose first chunk embeds fine
and whose second chunk makes the provider raise, the pass aborts — but
`conn.commit()` (`search.py:174`) is only reached after the whole loop, so the
uncommitted transaction holding the first chunk's rows is rolled back: starting
from the empty store, the committed store is still empty, with no row for the
first chunk's hash. -/
theorem c6_counterexample : ¬ClaimC6 := by
  intro h
  obtain ⟨-, row, hrow, -⟩ := h (fun _ => "H") embedFailSecond "p" twoChunkDoc "t"
    ⟨[], [], []⟩ ⟨bigLine, "p", 0, 0, [], "H"⟩ ⟨twoChunkDoc, "p", 0, 1, [], "H"⟩
    [⟨twoChunkDoc, "p", 0, 1, [], "H"⟩] [1] "boom" twoChunkDoc_chunks
    embedFailSecond_bigLine embedFailSecond_twoChunkDoc
  rw [indexMemoryFile_embed_fail (fun _ => "H") embedFailSecond "p" twoChunkDoc "t"
    ⟨[], [], []⟩ ⟨bigLine, "p", 0, 0, [], "H"⟩ ⟨twoChunkDoc, "p", 0, 1, [], "H"⟩
    [⟨twoChunkDoc, "p", 0, 1, [], "H"⟩] [1] "boom" twoChunkDoc_chunks
    embedFailSecond_bigLine embedFailSecond_twoChunkDoc] at hrow
  simp [committedStore] at hrow

/-- C6 amended: when the provider embeds the first chunk and raises on the
second, the whole pass aborts with that error (as claimed), but because the
sqlite transaction is committed only after the entire loop
(`search.py:174`), the entries written for the first chunk are rolled back:
the committed store after the failed pass equals the store before it. -/
theorem c6_abort_discards_partial_writes (md5Hex : List Char → String)
    (embed : List Char → Except String (List ℚ)) (path : String)
    (content : List Char) (now : String) (s : Store) (c1 c2 : Chunk)
    (rest : List Chunk) (v : List ℚ) (e : String)
    (hch : chunkContent md5Hex content path = c1 :: c2 :: rest)
    (h1 : embed c1.content = .ok v) (h2 : embed c2.content = .error e) :
    indexMemoryFile md5Hex embed path true content true now s = .error e ∧
    committedStore s (indexMemoryFile md5Hex embed path true content true now s) = s := by
  have hrun := indexMemoryFile_embed_fail md5Hex embed path content now s c1 c2 rest
    v e hch h1 h2
  exact ⟨hrun, by rw [hrun, committedStore]⟩

/-- C6 witness: the amended theorem at the concrete two-chunk document, the
failing embedder and the empty store. -/
theorem c6_abort_discards_partial_writes_witness :
    indexMemoryFile (fun _ => "H") embedFailSecond "p" true twoChunkDoc true "t"
      ⟨[], [], []⟩ = .error "boom" ∧
    committedStore ⟨[], [], []⟩
      (indexMemoryFile (fun _ => "H") embedFailSecond "p" true twoChunkDoc true "t"
        ⟨[], [], []⟩) = ⟨[], [], []⟩ :=
  c6_abort_discards_partial_writes (fun _ => "H") embedFailSecond "p" twoChunkDoc "t"
    ⟨[], [], []⟩ ⟨bigLine, "p", 0, 0, [], "H"⟩ ⟨twoChunkDoc, "p", 0, 1, [], "H"⟩
    [⟨twoChunkDoc, "p", 0, 1, [], "H"⟩] [1] "boom" twoChunkDoc_chunks
    embedFailSecond_bigLine embedFailSecond_twoChunkDoc

end Stasis
